import Mathlib

/-!
Verification of the gate-synthesis notebook: a shallow embedding of its
parameter store, layer/circuit construction, cost evaluator, optimization
driver and process-fidelity diagnostics, together with theorems settling
the specified properties.
-/

open scoped Matrix

namespace GateSynthesis

noncomputable section

/-! ## Cost evaluator

Embeds the notebook cell computing, from the batch of output kets and the
batch of target kets, the per-input overlap vector
(real part of the einsum of the conjugated target batch with the output
batch) and the scalar cost (sum of absolute deviations of the overlaps
from 1). -/

/-- Overlap vector: entry `b` is the real part of
`∑ i, conj (target_kets b i) * ket b i`, the batched einsum of the
conjugated target kets with the output kets, as in the notebook. -/
def overlaps (g cutoff : ℕ) (target_kets ket : Fin g → Fin cutoff → ℂ) : Fin g → ℝ :=
  fun b => (∑ i, (starRingEnd ℂ) (target_kets b i) * ket b i).re

/-- Scalar cost: `reduce_sum (abs (overlaps - 1))` applied to an overlap
vector. -/
def cost (g : ℕ) (ov : Fin g → ℝ) : ℝ :=
  ∑ b, |ov b - 1|

/-- Scalar cost as the notebook computes it, directly from the two batches. -/
def costOf (g cutoff : ℕ) (target_kets ket : Fin g → Fin cutoff → ℂ) : ℝ :=
  cost g (overlaps g cutoff target_kets ket)

/-- View of a finitely indexed complex vector as a point of the standard
complex Euclidean space, used to relate the computations of the notebook
to the mathematical inner product. -/
def toEuclidean (ι : Type) [Fintype ι] (v : ι → ℂ) : EuclideanSpace ℂ ι := v

/-- C1: the cost evaluator returns an overlaps vector whose `b`-th entry is
the real part of the complex inner product of the conjugated target ket
with the output ket, and a scalar cost equal to the sum over `b` of the
absolute value of `overlaps b - 1`. -/
theorem claim_C1_cost_evaluator (g cutoff : ℕ)
    (target_kets ket : Fin g → Fin cutoff → ℂ) :
    (∀ b, overlaps g cutoff target_kets ket b =
        (inner (toEuclidean (Fin cutoff) (target_kets b))
          (toEuclidean (Fin cutoff) (ket b)) : ℂ).re) ∧
    costOf g cutoff target_kets ket =
      ∑ b, |overlaps g cutoff target_kets ket b - 1| := by
  refine ⟨fun b => ?_, rfl⟩
  simp [overlaps, toEuclidean, PiLp.inner_apply, RCLike.inner_apply]

/-- C4: the cost is nonnegative, and vanishes exactly when every overlap
equals 1. -/
theorem claim_C4_cost_lower_bound (g : ℕ) (ov : Fin g → ℝ) :
    0 ≤ cost g ov ∧ (cost g ov = 0 ↔ ∀ b, ov b = 1) := by
  constructor
  · exact Finset.sum_nonneg fun b _ => abs_nonneg _
  · rw [cost, Finset.sum_eq_zero_iff_of_nonneg fun b _ => abs_nonneg _]
    simp [sub_eq_zero]

/-! ## Gates and the layer template

Modelled from the spec: the four gate families (phase rotation, squeezing,
displacement, Kerr) are provided by the simulator library whose sources are
not part of the notebook; the spec describes them as the standard
single-mode operations on the Fock space truncated to `cutoff` levels, a
norm-preserving evolution on the truncated space. Rotation and Kerr act
diagonally in the Fock basis; displacement and squeezing are exponentials
of the (truncated) anti-Hermitian generators built from the ladder
operators. -/

/-- Annihilation (lowering) ladder operator truncated to `cutoff` Fock
levels: the entry in row `m`, column `m+1` is `√(m+1)`. -/
def aOp (cutoff : ℕ) : Matrix (Fin cutoff) (Fin cutoff) ℂ :=
  Matrix.of fun m n => if (m : ℕ) + 1 = (n : ℕ) then ((Real.sqrt (n : ℕ) : ℝ) : ℂ) else 0

/-- Phase rotation gate: diagonal with entries `exp (I θ n)`. -/
def Rgate (cutoff : ℕ) (θ : ℝ) : Matrix (Fin cutoff) (Fin cutoff) ℂ :=
  Matrix.diagonal fun n => Complex.exp (Complex.I * (θ : ℂ) * ((n : ℕ) : ℂ))

/-- Kerr gate of strength `κ`: diagonal with entries `exp (I κ n^2)`. -/
def Kgate (cutoff : ℕ) (κ : ℝ) : Matrix (Fin cutoff) (Fin cutoff) ℂ :=
  Matrix.diagonal fun n => Complex.exp (Complex.I * (κ : ℂ) * ((n : ℕ) : ℂ) ^ 2)

/-- Anti-Hermitian generator of the displacement gate with amplitude
`α = r exp (I φ)`. -/
def dispGen (cutoff : ℕ) (r φ : ℝ) : Matrix (Fin cutoff) (Fin cutoff) ℂ :=
  ((r : ℂ) * Complex.exp (Complex.I * (φ : ℂ))) • (aOp cutoff)ᴴ -
    star ((r : ℂ) * Complex.exp (Complex.I * (φ : ℂ))) • aOp cutoff

/-- Displacement gate of magnitude `r` and phase `φ`. -/
def Dgate (cutoff : ℕ) (r φ : ℝ) : Matrix (Fin cutoff) (Fin cutoff) ℂ :=
  NormedSpace.exp ℂ (dispGen cutoff r φ)

/-- Anti-Hermitian generator of the squeezing gate with parameter
`z = r exp (I φ)`. -/
def sqGen (cutoff : ℕ) (r φ : ℝ) : Matrix (Fin cutoff) (Fin cutoff) ℂ :=
  (star ((r : ℂ) * Complex.exp (Complex.I * (φ : ℂ))) / 2) •
      (aOp cutoff * aOp cutoff) -
    (((r : ℂ) * Complex.exp (Complex.I * (φ : ℂ))) / 2) • ((aOp cutoff)ᴴ * (aOp cutoff)ᴴ)

/-- Squeezing gate of magnitude `r` and phase `φ`. -/
def Sgate (cutoff : ℕ) (r φ : ℝ) : Matrix (Fin cutoff) (Fin cutoff) ℂ :=
  NormedSpace.exp ℂ (sqGen cutoff r φ)

/-- Application of a gate matrix to a truncated state vector. -/
def applyGate (cutoff : ℕ) (M : Matrix (Fin cutoff) (Fin cutoff) ℂ)
    (q : Fin cutoff → ℂ) : Fin cutoff → ℂ :=
  M.mulVec q

/-- Trainable parameter store: seven sequences of real scalars of length
`depth`, as created by the notebook cell declaring the variables. -/
structure Params (depth : ℕ) where
  r1 : Fin depth → ℝ
  sq_r : Fin depth → ℝ
  sq_phi : Fin depth → ℝ
  r2 : Fin depth → ℝ
  d_r : Fin depth → ℝ
  d_phi : Fin depth → ℝ
  kappa : Fin depth → ℝ

/-- Layer function from the notebook: applies, in the written order, the
rotation by `r1 i`, the squeeze `(sq_r i, sq_phi i)`, the rotation by
`r2 i`, the displacement `(d_r i, d_phi i)` and the Kerr gate `kappa i`. -/
def layer (cutoff depth : ℕ) (p : Params depth) (i : Fin depth)
    (q : Fin cutoff → ℂ) : Fin cutoff → ℂ :=
  applyGate cutoff (Kgate cutoff (p.kappa i))
    (applyGate cutoff (Dgate cutoff (p.d_r i) (p.d_phi i))
      (applyGate cutoff (Rgate cutoff (p.r2 i))
        (applyGate cutoff (Sgate cutoff (p.sq_r i) (p.sq_phi i))
          (applyGate cutoff (Rgate cutoff (p.r1 i)) q))))

/-- Tagged descriptor for a single gate application, used to state that the
layer consists of exactly five operations in a fixed order. -/
inductive GateOp where
  | rot : ℝ → GateOp
  | squeeze : ℝ → ℝ → GateOp
  | disp : ℝ → ℝ → GateOp
  | kerr : ℝ → GateOp

/-- Matrix carried out by one gate descriptor. -/
def gateMatrix (cutoff : ℕ) : GateOp → Matrix (Fin cutoff) (Fin cutoff) ℂ
  | GateOp.rot θ => Rgate cutoff θ
  | GateOp.squeeze r φ => Sgate cutoff r φ
  | GateOp.disp r φ => Dgate cutoff r φ
  | GateOp.kerr κ => Kgate cutoff κ

/-- Applies a list of gate descriptors to a state, first element first. -/
def applyOps (cutoff : ℕ) (ops : List GateOp) (q : Fin cutoff → ℂ) : Fin cutoff → ℂ :=
  ops.foldl (fun s op => applyGate cutoff (gateMatrix cutoff op) s) q

/-- C2: the layer applies exactly five operations in the fixed order
rotation `r1 i`, squeeze `(sq_r i, sq_phi i)`, rotation `r2 i`,
displacement `(d_r i, d_phi i)`, Kerr `kappa i` — no other operation and no
reordering. -/
theorem claim_C2_layer_is_five_ops_in_order (cutoff depth : ℕ) (p : Params depth)
    (i : Fin depth) (q : Fin cutoff → ℂ) :
    layer cutoff depth p i q =
      applyOps cutoff
        [GateOp.rot (p.r1 i), GateOp.squeeze (p.sq_r i) (p.sq_phi i),
         GateOp.rot (p.r2 i), GateOp.disp (p.d_r i) (p.d_phi i),
         GateOp.kerr (p.kappa i)] q :=
  rfl

/-- Rotation by angle 0 is the identity matrix. -/
theorem Rgate_zero (cutoff : ℕ) : Rgate cutoff 0 = 1 := by
  simp [Rgate, Matrix.diagonal_one]

/-- Kerr gate of strength 0 is the identity matrix. -/
theorem Kgate_zero (cutoff : ℕ) : Kgate cutoff 0 = 1 := by
  simp [Kgate, Matrix.diagonal_one]

/-- Displacement of magnitude 0 is the identity matrix, for any phase. -/
theorem Dgate_zero (cutoff : ℕ) (φ : ℝ) : Dgate cutoff 0 φ = 1 := by
  have h : dispGen cutoff 0 φ = 0 := by
    simp [dispGen]
  rw [Dgate, h, NormedSpace.exp_zero]

/-- Squeeze of magnitude 0 is the identity matrix, for any phase. -/
theorem Sgate_zero (cutoff : ℕ) (φ : ℝ) : Sgate cutoff 0 φ = 1 := by
  have h : sqGen cutoff 0 φ = 0 := by
    simp [sqGen]
  rw [Sgate, h, NormedSpace.exp_zero]

/-- C3: a layer whose rotation angles, squeeze magnitude, displacement
magnitude and Kerr strength are all 0 (squeeze and displacement phases
arbitrary) leaves every input state unchanged. -/
theorem claim_C3_identity_layer (cutoff depth : ℕ) (p : Params depth) (i : Fin depth)
    (q : Fin cutoff → ℂ) (h1 : p.r1 i = 0) (h2 : p.sq_r i = 0) (h3 : p.r2 i = 0)
    (h4 : p.d_r i = 0) (h5 : p.kappa i = 0) :
    layer cutoff depth p i q = q := by
  rw [layer, h1, h2, h3, h4, h5, Rgate_zero, Kgate_zero, Dgate_zero, Sgate_zero]
  simp [applyGate, Matrix.one_mulVec]

/-- Parameter store whose seven sequences are identically 0, used as a
concrete instance of the identity-layer property. -/
def zeroParams (depth : ℕ) : Params depth :=
  ⟨fun _ => 0, fun _ => 0, fun _ => 0, fun _ => 0, fun _ => 0, fun _ => 0, fun _ => 0⟩

/-- Vacuum basis state of the truncated space: amplitude 1 on Fock level 0. -/
def e0 (cutoff : ℕ) : Fin cutoff → ℂ :=
  fun n => if (n : ℕ) = 0 then 1 else 0

/-- Witness for C3: the all-zero layer at cutoff 2 fixes the concrete state
`(1, 0)`. -/
theorem claim_C3_identity_layer_witness :
    layer 2 1 (zeroParams 1) 0 (e0 2) = e0 2 :=
  claim_C3_identity_layer 2 1 (zeroParams 1) 0 (e0 2) rfl rfl rfl rfl rfl

/-! ## Circuit builder and batch evaluation

The notebook runs the engine with a batch of `gate_cutoff` one-hot input
kets and applies the `depth` layers once, the numeric backend broadcasting
every gate matrix over the batch dimension. Batched evaluation is embedded
as the broadcast of each gate over the batch; single-input evaluation
applies the same layers to one state. -/

/-- Single-input circuit: applies layers `0, 1, …, depth-1` in order. -/
def runCircuit (cutoff depth : ℕ) (p : Params depth) (q : Fin cutoff → ℂ) :
    Fin cutoff → ℂ :=
  (List.finRange depth).foldl (fun s i => layer cutoff depth p i s) q

/-- Broadcast application of one gate matrix over a batch of states, as the
backend vectorizes a gate at batch size `g`. -/
def batchApplyGate (cutoff g : ℕ) (M : Matrix (Fin cutoff) (Fin cutoff) ℂ)
    (B : Fin g → Fin cutoff → ℂ) : Fin g → Fin cutoff → ℂ :=
  fun b => M.mulVec (B b)

/-- Batched layer: the five gates of layer `i` broadcast over the batch in
the same fixed order as the single-input layer. -/
def batchLayer (cutoff depth g : ℕ) (p : Params depth) (i : Fin depth)
    (B : Fin g → Fin cutoff → ℂ) : Fin g → Fin cutoff → ℂ :=
  batchApplyGate cutoff g (Kgate cutoff (p.kappa i))
    (batchApplyGate cutoff g (Dgate cutoff (p.d_r i) (p.d_phi i))
      (batchApplyGate cutoff g (Rgate cutoff (p.r2 i))
        (batchApplyGate cutoff g (Sgate cutoff (p.sq_r i) (p.sq_phi i))
          (batchApplyGate cutoff g (Rgate cutoff (p.r1 i)) B))))

/-- Batched circuit: applies the batched layers `0, 1, …, depth-1` in
order to the whole batch at once. -/
def runCircuitBatch (cutoff depth g : ℕ) (p : Params depth)
    (B : Fin g → Fin cutoff → ℂ) : Fin g → Fin cutoff → ℂ :=
  (List.finRange depth).foldl (fun s i => batchLayer cutoff depth g p i s) B

/-- One batched layer agrees componentwise with the single-input layer. -/
theorem batchLayer_apply (cutoff depth g : ℕ) (p : Params depth) (i : Fin depth)
    (B : Fin g → Fin cutoff → ℂ) (b : Fin g) :
    batchLayer cutoff depth g p i B b = layer cutoff depth p i (B b) :=
  rfl

/-- Folding the batched layers over any list of layer indices agrees
componentwise with folding the single-input layers. -/
theorem foldl_batchLayer_apply (cutoff depth g : ℕ) (p : Params depth)
    (l : List (Fin depth)) (B : Fin g → Fin cutoff → ℂ) (b : Fin g) :
    (l.foldl (fun s i => batchLayer cutoff depth g p i s) B) b =
      l.foldl (fun s i => layer cutoff depth p i s) (B b) := by
  induction l generalizing B with
  | nil => rfl
  | cons i l ih =>
      simpa [batchLayer_apply] using ih (batchLayer cutoff depth g p i B)

/-- C7: evaluating the circuit on the whole batch at once produces, for
each basis input, exactly the state obtained by evaluating the identical
layer sequence on that input alone. -/
theorem claim_C7_batch_equals_per_input (cutoff depth g : ℕ) (p : Params depth)
    (B : Fin g → Fin cutoff → ℂ) (b : Fin g) :
    runCircuitBatch cutoff depth g p B b = runCircuit cutoff depth p (B b) :=
  foldl_batchLayer_apply cutoff depth g p (List.finRange depth) B b

/-! ## Optimization driver

The notebook loop runs `for i in range(reps)`: each pass performs one
optimizer step on the parameters and appends the cost value and the
overlaps vector of that pass to `cost_progress` and `overlap_progress`.
The Adam update and the evaluation of cost and overlaps are performed by
the external session; they enter the embedding as the abstract functions
`stepP`, `evalCost` and `evalOverlaps`. -/

/-- State of the optimization run: current parameters and the two history
lists accumulated so far. -/
structure OptState (P Ov : Type) where
  params : P
  cost_progress : List ℝ
  overlap_progress : List Ov

/-- One pass of the loop body: record cost and overlaps of the current
parameters and take one optimizer step. -/
def optStep (P Ov : Type) (stepP : P → P) (evalCost : P → ℝ) (evalOverlaps : P → Ov)
    (s : OptState P Ov) : OptState P Ov :=
  { params := stepP s.params
    cost_progress := s.cost_progress ++ [evalCost s.params]
    overlap_progress := s.overlap_progress ++ [evalOverlaps s.params] }

/-- The driver: `reps` unconditional passes of the loop body, starting from
parameters `p0` and empty histories. -/
def runOptimization (P Ov : Type) (stepP : P → P) (evalCost : P → ℝ)
    (evalOverlaps : P → Ov) : ℕ → OptState P Ov → OptState P Ov
  | 0, s => s
  | n + 1, s => optStep P Ov stepP evalCost evalOverlaps
      (runOptimization P Ov stepP evalCost evalOverlaps n s)

/-- C5: the driver performs exactly `reps` iterations — the parameters have
received exactly `reps` optimizer steps, with no early stop and no extra
pass whatever the cost values are — and after `k` iterations each history
holds exactly `k` entries, the `j`-th being the value recorded at
iteration `j`. -/
theorem claim_C5_driver_runs_exactly_reps (P Ov : Type) (stepP : P → P)
    (evalCost : P → ℝ) (evalOverlaps : P → Ov) (p0 : P) (k : ℕ) :
    runOptimization P Ov stepP evalCost evalOverlaps k ⟨p0, [], []⟩ =
      ⟨stepP^[k] p0,
       (List.range k).map fun j => evalCost (stepP^[j] p0),
       (List.range k).map fun j => evalOverlaps (stepP^[j] p0)⟩ := by
  induction k with
  | zero => rfl
  | succ n ih =>
      rw [runOptimization, ih]
      simp [optStep, List.range_succ, Function.iterate_succ_apply']

/-! ## Parameter initialization

The notebook creates the seven trainable sequences with
`tf.random_normal(shape=[depth], stddev=…)`, whose mean defaults to 0.
The sampler itself belongs to the external numeric library; it is embedded
as a descriptor recording the mean, the standard deviation and the shape
of the requested draw, so that which family receives which standard
deviation is provable from the notebook text. -/

/-- Descriptor of one call to the normal sampler: mean, standard deviation
and number of values drawn. -/
structure NormalDraw where
  mean : ℝ
  stddev : ℝ
  length : ℕ

/-- Descriptor of `tf.random_normal` with shape `[n]` and the given
standard deviation; the mean defaults to 0. -/
def random_normal (n : ℕ) (sd : ℝ) : NormalDraw :=
  ⟨0, sd, n⟩

/-- The seven independent sampler calls of the initialization cell, one per
parameter family. -/
structure ParamInit where
  sq_r : NormalDraw
  sq_phi : NormalDraw
  d_r : NormalDraw
  d_phi : NormalDraw
  r1 : NormalDraw
  r2 : NormalDraw
  kappa : NormalDraw

/-- Initialization cell of the notebook: squeeze magnitude, displacement
magnitude and Kerr strength are drawn with `active_sd`; squeeze phase,
displacement phase and the two rotation angles with `passive_sd`; every
family with shape `[depth]`. -/
def initializeParams (depth : ℕ) (passive_sd active_sd : ℝ) : ParamInit :=
  { sq_r := random_normal depth active_sd
    sq_phi := random_normal depth passive_sd
    d_r := random_normal depth active_sd
    d_phi := random_normal depth passive_sd
    r1 := random_normal depth passive_sd
    r2 := random_normal depth passive_sd
    kappa := random_normal depth active_sd }

/-- C8: at initialization each passive family (`r1`, `r2`, `sq_phi`,
`d_phi`) is a separate zero-mean normal draw with standard deviation
`passive_sd`, each active family (`sq_r`, `d_r`, `kappa`) a separate
zero-mean normal draw with standard deviation `active_sd`, and every
family has length `depth`. -/
theorem claim_C8_initial_distributions (depth : ℕ) (passive_sd active_sd : ℝ) :
    (initializeParams depth passive_sd active_sd).r1 = ⟨0, passive_sd, depth⟩ ∧
    (initializeParams depth passive_sd active_sd).r2 = ⟨0, passive_sd, depth⟩ ∧
    (initializeParams depth passive_sd active_sd).sq_phi = ⟨0, passive_sd, depth⟩ ∧
    (initializeParams depth passive_sd active_sd).d_phi = ⟨0, passive_sd, depth⟩ ∧
    (initializeParams depth passive_sd active_sd).sq_r = ⟨0, active_sd, depth⟩ ∧
    (initializeParams depth passive_sd active_sd).d_r = ⟨0, active_sd, depth⟩ ∧
    (initializeParams depth passive_sd active_sd).kappa = ⟨0, active_sd, depth⟩ :=
  ⟨rfl, rfl, rfl, rfl, rfl, rfl, rfl⟩

/-! ## Configuration handling

The notebook assigns `cutoff`, `gate_cutoff`, `depth`, `reps` and the two
standard deviations as plain constants and immediately builds the one-hot
input batch with `np.zeros` followed by `np.fill_diagonal`; no cell checks
any relation between the constants. -/

/-- Configuration constants of the run, as assigned by the first code
cell. -/
structure Config where
  cutoff : ℕ
  gate_cutoff : ℕ
  depth : ℕ
  reps : ℕ
  passive_sd : ℝ
  active_sd : ℝ

/-- Input batch built at initialization: a `gate_cutoff × cutoff` array of
zeros with 1 on the main diagonal. The construction is total: it succeeds
for every configuration, with no validation anywhere. -/
def in_ket (g cutoff : ℕ) : Fin g → Fin cutoff → ℂ :=
  fun b n => if (b : ℕ) = (n : ℕ) then 1 else 0

/-- C9 divergence witness: with `gate_cutoff = 12 > cutoff = 10` (an
invalid configuration) the initialization still builds the input batch and
the driver still performs all of its `reps = 3` iterations; nothing
rejects the configuration before the loop. -/
theorem claim_C9_no_config_validation :
    10 < (Config.mk 10 12 25 3 0.1 0.001).gate_cutoff ∧
    (∀ b : Fin 12, ∀ n : Fin 10, in_ket 12 10 b n = if (b : ℕ) = (n : ℕ) then 1 else 0) ∧
    (runOptimization Unit Unit id (fun _ => 0) (fun _ => ()) 3
        ⟨(), [], []⟩).cost_progress.length = 3 := by
  refine ⟨by norm_num, fun b n => rfl, ?_⟩
  simp [runOptimization, optStep]

/-! ## Process fidelity diagnostics

Embeds the final notebook cells: the maximally entangled vector
`phi = flatten (identity g) / √g`, the two doubled-space vectors
`psi X = (kron I X) phi`, and the squared modulus of their complex dot
product. -/

/-- Maximally entangled reference vector on the doubled space:
`flatten (identity g) / √g`. -/
def phiME (g : ℕ) : Fin g × Fin g → ℂ :=
  fun p => if p.1 = p.2 then ((1 / Real.sqrt g : ℝ) : ℂ) else 0

/-- Kronecker product of two `g × g` matrices, indexed by pairs in
row-major order as `np.kron` lays it out. -/
def kron (g : ℕ) (A B : Matrix (Fin g) (Fin g) ℂ) :
    Matrix (Fin g × Fin g) (Fin g × Fin g) ℂ :=
  Matrix.of fun p q => A p.1 q.1 * B p.2 q.2

/-- Doubled-space image of a block `X`: `psi X = (kron 1 X) phi`. -/
def psiOf (g : ℕ) (X : Matrix (Fin g) (Fin g) ℂ) : Fin g × Fin g → ℂ :=
  (kron g 1 X).mulVec (phiME g)

/-- Complex dot product with the first argument conjugated, as `np.vdot`. -/
def vdot (n : Type) [Fintype n] (x y : n → ℂ) : ℂ :=
  ∑ i, (starRingEnd ℂ) (x i) * y i

/-- Process fidelity of the final cells:
`abs (vdot (psi V) (psi U)) ^ 2`. -/
def process_fidelity (g : ℕ) (V U : Matrix (Fin g) (Fin g) ℂ) : ℝ :=
  Complex.abs (vdot (Fin g × Fin g) (psiOf g V) (psiOf g U)) ^ 2

/-- Entry formula for the doubled-space vectors. -/
theorem psiOf_apply (g : ℕ) (X : Matrix (Fin g) (Fin g) ℂ) (p : Fin g × Fin g) :
    psiOf g X p = X p.2 p.1 * ((1 / Real.sqrt g : ℝ) : ℂ) := by
  obtain ⟨i, j⟩ := p
  simp only [psiOf, kron, phiME, Matrix.mulVec, Matrix.dotProduct, Matrix.of_apply,
    Fintype.sum_prod_type, mul_ite, mul_zero, mul_one, ite_mul, zero_mul]
  rw [Finset.sum_comm]
  simp [Finset.sum_ite_eq, Matrix.one_apply, mul_comm, mul_left_comm]

/-- Dot product of the two doubled-space vectors, as a scaled trace of
`Vᴴ * U`. -/
theorem vdot_psi (g : ℕ) (V U : Matrix (Fin g) (Fin g) ℂ) :
    vdot (Fin g × Fin g) (psiOf g V) (psiOf g U) =
      (((1 / Real.sqrt g : ℝ) : ℂ)) ^ 2 *
        ∑ i, ∑ j, (starRingEnd ℂ) (V j i) * U j i := by
  rw [vdot, Fintype.sum_prod_type, Finset.mul_sum]
  refine Finset.sum_congr rfl fun i _ => ?_
  rw [Finset.mul_sum]
  refine Finset.sum_congr rfl fun j _ => ?_
  simp only [psiOf_apply, map_mul, Complex.conj_ofReal]
  ring

/-- Squared-modulus mass of a doubled-space vector, as a scaled entrywise
mass of the block. -/
theorem sum_normSq_psi (g : ℕ) (X : Matrix (Fin g) (Fin g) ℂ) :
    ∑ p, Complex.normSq (psiOf g X p) =
      (1 / Real.sqrt g) ^ 2 * ∑ i, ∑ j, Complex.normSq (X j i) := by
  simp only [psiOf_apply, Complex.normSq_mul, Complex.normSq_ofReal]
  rw [Fintype.sum_prod_type, Finset.mul_sum]
  refine Finset.sum_congr rfl fun i _ => ?_
  rw [Finset.mul_sum]
  refine Finset.sum_congr rfl fun j _ => ?_
  ring

/-- Each column of a matrix with `Vᴴ * V = 1` carries unit
squared-modulus mass. -/
theorem sum_normSq_col_of_unitary (g : ℕ) (V : Matrix (Fin g) (Fin g) ℂ)
    (hV : Vᴴ * V = 1) (i : Fin g) : ∑ j, Complex.normSq (V j i) = 1 := by
  have h : (Vᴴ * V) i i = 1 := by rw [hV, Matrix.one_apply_eq]
  rw [Matrix.mul_apply] at h
  have h2 : ((∑ j, Complex.normSq (V j i) : ℝ) : ℂ) = 1 := by
    rw [← h]
    push_cast
    refine Finset.sum_congr rfl fun j _ => ?_
    rw [Complex.normSq_eq_conj_mul_self]
    rfl
  exact_mod_cast h2

/-- Cauchy–Schwarz bound for the complex dot product, through the standard
Euclidean structure. -/
theorem abs_vdot_le (ι : Type) [Fintype ι] (x y : ι → ℂ) :
    Complex.abs (vdot ι x y) ≤
      Real.sqrt (∑ i, Complex.normSq (x i)) * Real.sqrt (∑ i, Complex.normSq (y i)) := by
  have h := norm_inner_le_norm (𝕜 := ℂ) (toEuclidean ι x) (toEuclidean ι y)
  have hinner : (inner (toEuclidean ι x) (toEuclidean ι y) : ℂ) = vdot ι x y := by
    simp [vdot, toEuclidean, PiLp.inner_apply, RCLike.inner_apply]
  have hx : ‖toEuclidean ι x‖ = Real.sqrt (∑ i, Complex.normSq (x i)) := by
    rw [EuclideanSpace.norm_eq]
    congr 1
    refine Finset.sum_congr rfl fun i _ => ?_
    rw [Complex.norm_eq_abs, Complex.sq_abs]
    rfl
  have hy : ‖toEuclidean ι y‖ = Real.sqrt (∑ i, Complex.normSq (y i)) := by
    rw [EuclideanSpace.norm_eq]
    congr 1
    refine Finset.sum_congr rfl fun i _ => ?_
    rw [Complex.norm_eq_abs, Complex.sq_abs]
    rfl
  rw [hinner, hx, hy, Complex.norm_eq_abs] at h
  exact h

/-- C6 (amended): for a unitary target block and a learnt block whose
columns carry at most unit squared-modulus mass, the process fidelity lies
in `[0, 1]`; it equals 1 when the learnt block reproduces the target block
up to one global phase common to all inputs. -/
theorem claim_C6_process_fidelity_amended (g : ℕ) (hg : 0 < g)
    (V U : Matrix (Fin g) (Fin g) ℂ) (hV : Vᴴ * V = 1)
    (hU : ∀ i, ∑ j, Complex.normSq (U j i) ≤ 1) :
    0 ≤ process_fidelity g V U ∧ process_fidelity g V U ≤ 1 ∧
      ∀ c : ℂ, Complex.abs c = 1 → U = c • V → process_fidelity g V U = 1 := by
  have hgR : (0 : ℝ) < (g : ℝ) := by exact_mod_cast hg
  have hsq : (1 / Real.sqrt g) ^ 2 = 1 / (g : ℝ) := by
    rw [div_pow, one_pow, Real.sq_sqrt hgR.le]
  have hVmass : ∑ i, ∑ j, Complex.normSq (V j i) = (g : ℝ) := by
    rw [Finset.sum_congr rfl fun i _ => sum_normSq_col_of_unitary g V hV i]
    simp [Finset.sum_const, Finset.card_univ]
  refine ⟨sq_nonneg _, ?_, ?_⟩
  · have hA : ∑ p, Complex.normSq (psiOf g V p) = 1 := by
      rw [sum_normSq_psi, hsq, hVmass]
      field_simp
    have hB : ∑ p, Complex.normSq (psiOf g U p) ≤ 1 := by
      rw [sum_normSq_psi, hsq]
      have hUmass : ∑ i, ∑ j, Complex.normSq (U j i) ≤ (g : ℝ) := by
        calc ∑ i, ∑ j, Complex.normSq (U j i) ≤ ∑ _i : Fin g, (1 : ℝ) :=
              Finset.sum_le_sum fun i _ => hU i
          _ = (g : ℝ) := by simp [Finset.sum_const, Finset.card_univ]
      calc (1 / (g : ℝ)) * ∑ i, ∑ j, Complex.normSq (U j i)
            ≤ (1 / (g : ℝ)) * (g : ℝ) := by
              exact mul_le_mul_of_nonneg_left hUmass (by positivity)
        _ = 1 := by field_simp
    have hB0 : 0 ≤ ∑ p, Complex.normSq (psiOf g U p) :=
      Finset.sum_nonneg fun p _ => Complex.normSq_nonneg _
    have hCS := abs_vdot_le (Fin g × Fin g) (psiOf g V) (psiOf g U)
    have h1 : process_fidelity g V U ≤
        (Real.sqrt (∑ p, Complex.normSq (psiOf g V p)) *
          Real.sqrt (∑ p, Complex.normSq (psiOf g U p))) ^ 2 := by
      rw [process_fidelity]
      exact pow_le_pow_left₀ (Complex.abs.nonneg _) hCS 2
    calc process_fidelity g V U
        ≤ (Real.sqrt (∑ p, Complex.normSq (psiOf g V p)) *
            Real.sqrt (∑ p, Complex.normSq (psiOf g U p))) ^ 2 := h1
      _ = (∑ p, Complex.normSq (psiOf g V p)) * (∑ p, Complex.normSq (psiOf g U p)) := by
          rw [mul_pow, Real.sq_sqrt (Finset.sum_nonneg fun p _ => Complex.normSq_nonneg _),
            Real.sq_sqrt hB0]
      _ ≤ 1 := by rw [hA, one_mul]; exact hB
  · intro c hc hUc
    subst hUc
    have hvd : vdot (Fin g × Fin g) (psiOf g V) (psiOf g (c • V)) =
        (((1 / Real.sqrt g : ℝ) : ℂ)) ^ 2 * (c * (g : ℂ)) := by
      rw [vdot_psi]
      congr 1
      calc ∑ i, ∑ j, (starRingEnd ℂ) (V j i) * (c • V) j i
          = ∑ i, ∑ j, c * ((starRingEnd ℂ) (V j i) * V j i) := by
            refine Finset.sum_congr rfl fun i _ => Finset.sum_congr rfl fun j _ => ?_
            simp [Matrix.smul_apply]
            ring
        _ = ∑ i : Fin g, c * ((∑ j, Complex.normSq (V j i) : ℝ) : ℂ) := by
            refine Finset.sum_congr rfl fun i _ => ?_
            rw [← Finset.mul_sum]
            congr 1
            push_cast
            exact Finset.sum_congr rfl fun j _ => Complex.normSq_eq_conj_mul_self.symm
        _ = c * (g : ℂ) := by
            rw [Finset.sum_congr rfl fun i _ => by
              rw [sum_normSq_col_of_unitary g V hV i]]
            simp [Finset.sum_const, Finset.card_univ, mul_comm]
    have habs : Complex.abs ((((1 / Real.sqrt g : ℝ) : ℂ)) ^ 2 * (c * (g : ℂ))) = 1 := by
      rw [map_mul, map_pow, map_mul, Complex.abs_ofReal, Complex.abs_natCast, hc,
        abs_of_nonneg (by positivity : (0 : ℝ) ≤ 1 / Real.sqrt g), hsq, one_mul,
        one_div, inv_mul_cancel₀ hgR.ne']
    rw [process_fidelity, hvd, habs, one_pow]

/-- Witness for C6: at `g = 1` with target and learnt blocks both the
identity, the hypotheses hold and the fidelity is 1 and lies in `[0,1]`. -/
theorem claim_C6_process_fidelity_amended_witness :
    0 ≤ process_fidelity 1 1 1 ∧ process_fidelity 1 1 1 ≤ 1 ∧
      process_fidelity 1 1 1 = 1 := by
  have h := claim_C6_process_fidelity_amended 1 (by norm_num) 1 1 (by simp)
    (fun i => by fin_cases i; simp [Matrix.one_apply])
  exact ⟨h.1, h.2.1, h.2.2 1 (by simp) (by simp)⟩

/-- Learnt block reproducing the identity target up to an independent phase
per input: the first column with phase `-1`, the second with phase `1`. -/
def Ucx : Matrix (Fin 2) (Fin 2) ℂ :=
  Matrix.diagonal fun j => if (j : ℕ) = 0 then -1 else 1

/-- Counterexample to C6 as stated: the target block `1` is unitary, every
column of `Ucx` is the corresponding target column times a unit-modulus
phase (a global phase per input), yet the process fidelity is not 1. -/
theorem claim_C6_counterexample :
    (1 : Matrix (Fin 2) (Fin 2) ℂ)ᴴ * 1 = 1 ∧
    (∀ i, ∑ j, Complex.normSq (Ucx j i) ≤ 1) ∧
    (∀ i : Fin 2, ∃ c : ℂ, Complex.abs c = 1 ∧
      ∀ j, Ucx j i = c * (1 : Matrix (Fin 2) (Fin 2) ℂ) j i) ∧
    process_fidelity 2 1 Ucx ≠ 1 := by
  refine ⟨by simp, ?_, ?_, ?_⟩
  · intro i
    fin_cases i <;>
      simp [Ucx, Fin.sum_univ_two, Matrix.diagonal]
  · intro i
    fin_cases i
    · exact ⟨-1, by simp, fun j => by
        fin_cases j <;> simp [Ucx, Matrix.diagonal, Matrix.one_apply]⟩
    · exact ⟨1, by simp, fun j => by
        fin_cases j <;> simp [Ucx, Matrix.diagonal, Matrix.one_apply]⟩
  · have hvd : vdot (Fin 2 × Fin 2) (psiOf 2 1) (psiOf 2 Ucx) = 0 := by
      rw [vdot_psi]
      have : ∑ i : Fin 2, ∑ j : Fin 2,
          (starRingEnd ℂ) ((1 : Matrix (Fin 2) (Fin 2) ℂ) j i) * Ucx j i = 0 := by
        simp [Fin.sum_univ_two, Matrix.one_apply, Ucx, Matrix.diagonal]
      rw [this, mul_zero]
    rw [process_fidelity, hvd]
    simp

/-! ## Norm preservation and the extracted block

The learnt block is the transpose of the final output batch restricted to
the first `gate_cutoff` amplitudes; its `i`-th column is the truncation of
output state `i`. The gates are norm-preserving on the truncated space, so
each output state keeps unit norm and each extracted column has Euclidean
norm at most 1, with equality exactly when the state has no amplitude on
levels at or above `gate_cutoff`. -/

/-- Squared Euclidean norm of a truncated state. -/
def vecNormSq (n : ℕ) (v : Fin n → ℂ) : ℝ :=
  ∑ i, Complex.normSq (v i)

/-- Complex dot product of the conjugate of a vector with itself is its
squared norm. -/
theorem star_dotProduct_self (n : ℕ) (w : Fin n → ℂ) :
    star w ⬝ᵥ w = ((vecNormSq n w : ℝ) : ℂ) := by
  rw [Matrix.dotProduct, vecNormSq]
  push_cast
  refine Finset.sum_congr rfl fun i _ => ?_
  rw [Complex.normSq_eq_conj_mul_self]
  rfl

/-- A matrix with `Mᴴ * M = 1` preserves the squared norm of every
vector it multiplies. -/
theorem mulVec_vecNormSq_of_unitary (n : ℕ) (M : Matrix (Fin n) (Fin n) ℂ)
    (h : Mᴴ * M = 1) (v : Fin n → ℂ) :
    vecNormSq n (M.mulVec v) = vecNormSq n v := by
  have key : star (M.mulVec v) ⬝ᵥ (M.mulVec v) = star v ⬝ᵥ v := by
    rw [Matrix.star_mulVec, Matrix.dotProduct_mulVec, Matrix.vecMul_vecMul, h,
      Matrix.vecMul_one]
  have h1 := star_dotProduct_self n (M.mulVec v)
  have h2 := star_dotProduct_self n v
  rw [h1, h2] at key
  exact_mod_cast key

/-- Unit-modulus diagonal entries: the conjugate of `exp z` with purely
imaginary `z` multiplies with `exp z` to 1. -/
theorem conj_exp_mul_self (z : ℂ) (h : (starRingEnd ℂ) z = -z) :
    (starRingEnd ℂ) (Complex.exp z) * Complex.exp z = 1 := by
  rw [← Complex.exp_conj, h, ← Complex.exp_add, neg_add_cancel, Complex.exp_zero]

/-- The rotation gate satisfies `Mᴴ * M = 1`. -/
theorem Rgate_unitary (cutoff : ℕ) (θ : ℝ) :
    (Rgate cutoff θ)ᴴ * Rgate cutoff θ = 1 := by
  rw [Rgate, Matrix.diagonal_conjTranspose, Matrix.diagonal_mul_diagonal]
  rw [← Matrix.diagonal_one, Matrix.diagonal_eq_diagonal_iff]
  intro n
  rw [Pi.star_apply]
  exact conj_exp_mul_self _ (by simp)

/-- The Kerr gate satisfies `Mᴴ * M = 1`. -/
theorem Kgate_unitary (cutoff : ℕ) (κ : ℝ) :
    (Kgate cutoff κ)ᴴ * Kgate cutoff κ = 1 := by
  rw [Kgate, Matrix.diagonal_conjTranspose, Matrix.diagonal_mul_diagonal]
  rw [← Matrix.diagonal_one, Matrix.diagonal_eq_diagonal_iff]
  intro n
  rw [Pi.star_apply]
  exact conj_exp_mul_self _ (by simp)

/-- The exponential of an anti-Hermitian matrix satisfies `Mᴴ * M = 1`. -/
theorem exp_skew_unitary (n : ℕ) (S : Matrix (Fin n) (Fin n) ℂ) (h : Sᴴ = -S) :
    (NormedSpace.exp ℂ S)ᴴ * NormedSpace.exp ℂ S = 1 := by
  rw [← Matrix.exp_conjTranspose, h,
    ← Matrix.exp_add_of_commute ℂ (-S) S (Commute.neg_left (Commute.refl S)),
    neg_add_cancel, NormedSpace.exp_zero]

/-- The displacement generator is anti-Hermitian. -/
theorem dispGen_skew (cutoff : ℕ) (r φ : ℝ) :
    (dispGen cutoff r φ)ᴴ = -dispGen cutoff r φ := by
  simp only [dispGen, Matrix.conjTranspose_sub, Matrix.conjTranspose_smul,
    Matrix.conjTranspose_conjTranspose, star_star, neg_sub]

/-- The squeezing generator is anti-Hermitian. -/
theorem sqGen_skew (cutoff : ℕ) (r φ : ℝ) :
    (sqGen cutoff r φ)ᴴ = -sqGen cutoff r φ := by
  simp only [sqGen, Matrix.conjTranspose_sub, Matrix.conjTranspose_smul,
    Matrix.conjTranspose_mul, Matrix.conjTranspose_conjTranspose,
    star_div₀, star_star, star_ofNat, neg_sub]

/-- The displacement gate satisfies `Mᴴ * M = 1`. -/
theorem Dgate_unitary (cutoff : ℕ) (r φ : ℝ) :
    (Dgate cutoff r φ)ᴴ * Dgate cutoff r φ = 1 :=
  exp_skew_unitary cutoff (dispGen cutoff r φ) (dispGen_skew cutoff r φ)

/-- The squeezing gate satisfies `Mᴴ * M = 1`. -/
theorem Sgate_unitary (cutoff : ℕ) (r φ : ℝ) :
    (Sgate cutoff r φ)ᴴ * Sgate cutoff r φ = 1 :=
  exp_skew_unitary cutoff (sqGen cutoff r φ) (sqGen_skew cutoff r φ)

/-- One layer preserves the squared norm of every state. -/
theorem layer_vecNormSq (cutoff depth : ℕ) (p : Params depth) (i : Fin depth)
    (q : Fin cutoff → ℂ) :
    vecNormSq cutoff (layer cutoff depth p i q) = vecNormSq cutoff q := by
  rw [layer, applyGate, applyGate, applyGate, applyGate, applyGate]
  rw [mulVec_vecNormSq_of_unitary cutoff _ (Kgate_unitary cutoff (p.kappa i))]
  rw [mulVec_vecNormSq_of_unitary cutoff _ (Dgate_unitary cutoff (p.d_r i) (p.d_phi i))]
  rw [mulVec_vecNormSq_of_unitary cutoff _ (Rgate_unitary cutoff (p.r2 i))]
  rw [mulVec_vecNormSq_of_unitary cutoff _ (Sgate_unitary cutoff (p.sq_r i) (p.sq_phi i))]
  rw [mulVec_vecNormSq_of_unitary cutoff _ (Rgate_unitary cutoff (p.r1 i))]

/-- The whole circuit preserves the squared norm of every state. -/
theorem runCircuit_vecNormSq (cutoff depth : ℕ) (p : Params depth)
    (q : Fin cutoff → ℂ) :
    vecNormSq cutoff (runCircuit cutoff depth p q) = vecNormSq cutoff q := by
  rw [runCircuit]
  generalize List.finRange depth = l
  induction l generalizing q with
  | nil => rfl
  | cons i l ih =>
      rw [List.foldl_cons, ih (layer cutoff depth p i q), layer_vecNormSq]

/-- C10: for every parameter set and every unit-norm input state the
circuit output keeps unit norm; the Euclidean norm of its restriction to
the first `g` Fock levels — the corresponding column of the extracted
block — is at most 1, and it equals 1 exactly when the output has no
amplitude on any level at or above `g`. -/
theorem claim_C10_block_column_norm (cutoff depth g : ℕ) (p : Params depth)
    (v : Fin cutoff → ℂ) (hv : vecNormSq cutoff v = 1) :
    vecNormSq cutoff (runCircuit cutoff depth p v) = 1 ∧
    Real.sqrt (∑ j ∈ Finset.univ.filter (fun j : Fin cutoff => (j : ℕ) < g),
        Complex.normSq (runCircuit cutoff depth p v j)) ≤ 1 ∧
    (Real.sqrt (∑ j ∈ Finset.univ.filter (fun j : Fin cutoff => (j : ℕ) < g),
        Complex.normSq (runCircuit cutoff depth p v j)) = 1 ↔
      ∀ j : Fin cutoff, g ≤ (j : ℕ) → runCircuit cutoff depth p v j = 0) := by
  have hout : vecNormSq cutoff (runCircuit cutoff depth p v) = 1 := by
    rw [runCircuit_vecNormSq, hv]
  set out := runCircuit cutoff depth p v with hdefout
  set s1 := ∑ j ∈ Finset.univ.filter (fun j : Fin cutoff => (j : ℕ) < g),
    Complex.normSq (out j) with hs1
  set s2 := ∑ j ∈ Finset.univ.filter (fun j : Fin cutoff => ¬ (j : ℕ) < g),
    Complex.normSq (out j) with hs2
  have hsplit : s1 + s2 = 1 := by
    rw [hs1, hs2, Finset.sum_filter_add_sum_filter_not]
    exact hout
  have hs1nn : 0 ≤ s1 := Finset.sum_nonneg fun j _ => Complex.normSq_nonneg _
  have hs2nn : 0 ≤ s2 := Finset.sum_nonneg fun j _ => Complex.normSq_nonneg _
  have hs1le : s1 ≤ 1 := by linarith
  refine ⟨hout, ?_, ?_⟩
  · calc Real.sqrt s1 ≤ Real.sqrt 1 := Real.sqrt_le_sqrt hs1le
      _ = 1 := Real.sqrt_one
  · rw [Real.sqrt_eq_one]
    constructor
    · intro h1
      have h2 : s2 = 0 := by linarith
      have h3 := (Finset.sum_eq_zero_iff_of_nonneg
        fun j (_ : j ∈ Finset.univ.filter fun j : Fin cutoff => ¬ (j : ℕ) < g) =>
          Complex.normSq_nonneg (out j)).mp h2
      intro j hj
      have hmem : j ∈ Finset.univ.filter fun j : Fin cutoff => ¬ (j : ℕ) < g := by
        simp [Finset.mem_filter, not_lt, hj]
      exact Complex.normSq_eq_zero.mp (h3 j hmem)
    · intro hz
      have h2 : s2 = 0 := by
        rw [hs2]
        refine Finset.sum_eq_zero fun j hj => ?_
        rw [Finset.mem_filter, not_lt] at hj
        rw [hz j hj.2, Complex.normSq_zero]
      linarith

/-- Witness for C10: the vacuum state at cutoff 1 has unit norm, and the
empty circuit therefore satisfies the three conclusions at `g = 1`. -/
theorem claim_C10_block_column_norm_witness :
    vecNormSq 1 (e0 1) = 1 ∧
      (vecNormSq 1 (runCircuit 1 0 (zeroParams 0) (e0 1)) = 1 ∧
       Real.sqrt (∑ j ∈ Finset.univ.filter (fun j : Fin 1 => (j : ℕ) < 1),
          Complex.normSq (runCircuit 1 0 (zeroParams 0) (e0 1) j)) ≤ 1 ∧
       (Real.sqrt (∑ j ∈ Finset.univ.filter (fun j : Fin 1 => (j : ℕ) < 1),
          Complex.normSq (runCircuit 1 0 (zeroParams 0) (e0 1) j)) = 1 ↔
        ∀ j : Fin 1, 1 ≤ (j : ℕ) → runCircuit 1 0 (zeroParams 0) (e0 1) j = 0)) :=
  ⟨by simp [vecNormSq, e0],
   claim_C10_block_column_norm 1 0 1 (zeroParams 0) (e0 1) (by simp [vecNormSq, e0])⟩

end

end GateSynthesis
